import Mathlib

/-!
Verification development for the `pod` podcast-transcription service.

The definitions below are a shallow embedding of the orchestration core of
the repository: the transcribe endpoint and its in-progress job registry
(`src/pod/api.py`), the status poller (`src/pod/api.py`), the silence-based
audio segmenter, per-segment transcription offsetting, the episode job body
(`src/pod/main.py`), and the transcript-segment coalescer
(`src/pod/podcast.py`).  Machine floats of the source are modelled as
rationals, wall-clock integer timestamps as `Int`, and external effects
(file system, network, the whisper model) as explicit inputs.
-/

namespace Pod

/-! ### Data model (`src/pod/api.py`, `src/pod/podcast.py`) -/

/-- `InProgressJob` from `api.py`: the registry handle for a dispatched job. -/
structure InProgressJob where
  call_id : String
  start_time : Int
deriving DecidableEq, Repr

/-- A value stored in the `container_app.in_progress` dict.  The code's
runtime `isinstance` check acknowledges that old plain-`str` values may be
present alongside `InProgressJob` handles. -/
inductive RegEntry where
  | job (j : InProgressJob)
  | str (s : String)
deriving DecidableEq, Repr

/-- The shared `in_progress` dict, keyed by episode id. -/
def Registry : Type := String → Option RegEntry

/-- `MAX_JOB_AGE_SECS = 10 * 60` from `api.py`. -/
def MAX_JOB_AGE_SECS : Int := 10 * 60

/-- Point update of the registry, as `container_app.in_progress[k] = v`. -/
def Registry.store (reg : Registry) (k : String) (v : RegEntry) : Registry :=
  fun k' => if k' = k then some v else reg k'

/-- Deletion, as `del container_app.in_progress[k]` (the key present). -/
def Registry.erase (reg : Registry) (k : String) : Registry :=
  fun k' => if k' = k then none else reg k'

/-- Result of one call to the transcribe endpoint: the returned call id, the
registry afterwards, and whether `process_episode.spawn` was invoked. -/
structure TranscribeResult where
  call_id : String
  registry : Registry
  started : Bool

/-- `transcribe_job` from `api.py`, lines 65–91.  `now = int(time.time())` is
passed explicitly; `new_call_id` stands for `call.object_id` of the job that
`process_episode.spawn` would create if the endpoint decides to spawn.  The
lookup `container_app.in_progress[episode_id]` raises `KeyError` when absent
(the `none` branch); an existing entry is returned untouched only when it is
an `InProgressJob` younger than `MAX_JOB_AGE_SECS`. -/
def transcribe_job (reg : Registry) (episode_id : String) (now : Int)
    (new_call_id : String) : TranscribeResult :=
  let live : Option String :=
    match reg episode_id with
    | some (RegEntry.job j) =>
        if now - j.start_time < MAX_JOB_AGE_SECS then some j.call_id else none
    | some (RegEntry.str _) => none
    | none => none
  match live with
  | some existing_call_id =>
      { call_id := existing_call_id, registry := reg, started := false }
  | none =>
      { call_id := new_call_id,
        registry := reg.store episode_id
          (RegEntry.job { call_id := new_call_id, start_time := now }),
        started := true }

/-! ### Transcript segments and the coalescer (`src/pod/podcast.py`) -/

/-- `Segment` from `podcast.py`: `{"text": str, "start": float, "end": float}`.
Timestamps are modelled as rationals. -/
structure Segment where
  text : String
  start : ℚ
  stop : ℚ
deriving DecidableEq, Repr

/-- `_merge_segments` from `podcast.py`. -/
def _merge_segments (left right : Segment) : Segment :=
  { text := left.text ++ " " ++ right.text
    start := left.start
    stop := right.stop }

/-- `minimum_transcript_len = 200` from `coalesce_short_transcript_segments`. -/
def minimum_transcript_len : Nat := 200

/-- The loop of `coalesce_short_transcript_segments`: `previous` is the
pending accumulator, `long_enough_segments` the emitted prefix. -/
def coalesceGo (previous : Option Segment) (long_enough_segments : List Segment) :
    List Segment → List Segment
  | [] =>
      match previous with
      | some p => long_enough_segments ++ [p]
      | none => long_enough_segments
  | current :: rest =>
      match previous with
      | none => coalesceGo (some current) long_enough_segments rest
      | some p =>
          if p.text.length < minimum_transcript_len then
            coalesceGo (some (_merge_segments p current)) long_enough_segments rest
          else
            coalesceGo (some current) (long_enough_segments ++ [p]) rest

/-- `coalesce_short_transcript_segments` from `podcast.py`, lines 104–124. -/
def coalesce_short_transcript_segments (segments : List Segment) : List Segment :=
  coalesceGo none [] segments

/-- Space-joined concatenation of a list of strings, the reading of
"concatenating all texts with single-space separators". -/
def sjoin : List String → String
  | [] => ""
  | [a] => a
  | a :: b :: rest => a ++ " " ++ sjoin (b :: rest)

/-! ### Silence-based segmentation (`src/pod/main.py`, `split_silences`) -/

/-- One `silencedetect` stderr match: the reported `silence_end` and
`silence_duration`, in the order the lines are read. -/
structure SilenceMark where
  silence_end : ℚ
  silence_dur : ℚ
deriving DecidableEq, Repr

/-- The `while True` loop of `split_silences`: scans the silence marks in
stream order, carrying `cur_start`; a candidate split at
`silence_end - silence_duration / 2` is taken only when the segment it
closes reaches `min_segment_length`.  Returns the yielded `(start, end)`
pairs together with the final `cur_start`. -/
def splitLoop (min_segment_length : ℚ) (cur_start : ℚ) :
    List SilenceMark → List (ℚ × ℚ) × ℚ
  | [] => ([], cur_start)
  | m :: rest =>
      let split_at := m.silence_end - m.silence_dur / 2
      if split_at - cur_start < min_segment_length then
        splitLoop min_segment_length cur_start rest
      else
        let r := splitLoop min_segment_length split_at rest
        ((cur_start, split_at) :: r.1, r.2)

/-- `split_silences` from `main.py`, lines 120–167, as a function of the
probed `duration` and the stream of silence marks.  After the loop, the
trailing `[cur_start, duration)` tail is yielded only when it is strictly
longer than `min_segment_length` (and `duration > cur_start`, guarding
against silence ends placed past the end of the audio). -/
def split_silences (duration : ℚ) (marks : List SilenceMark)
    (min_segment_length : ℚ := 30) : List (ℚ × ℚ) :=
  let r := splitLoop min_segment_length 0 marks
  if duration > r.2 ∧ duration - r.2 > min_segment_length then
    r.1 ++ [(r.2, duration)]
  else
    r.1

/-! ### Per-segment transcription and the merge (`src/pod/main.py`) -/

/-- The dict returned by `whisper.transcribe` for one audio segment: full
text, sub-segments on the segment-local timeline, detected language. -/
structure WhisperResult where
  text : String
  segments : List Segment
  language : String
deriving DecidableEq, Repr

/-- The post-processing of `transcribe_segment` (`main.py`, lines 210–215):
`segment["start"] += start; segment["end"] += start` for each sub-segment
of the model's result, moving it onto the global episode timeline.  The
model itself is a black box, so the raw result is an input. -/
def transcribe_segment (start : ℚ) (result : WhisperResult) : WhisperResult :=
  { result with
      segments := result.segments.map fun s =>
        { s with start := s.start + start, stop := s.stop + start } }

/-- Modal's `Function.starmap` semantics relied on by `transcribe_episode`:
workers finish in an arbitrary arrival order, but the generator yields
results in the order of the inputs.  Arrivals are `(input index, result)`
pairs; the collected sequence re-orders them by input index. -/
def starmap_collect (n : Nat) (arrivals : List (Nat × WhisperResult)) :
    List WhisperResult :=
  (List.range n).filterMap fun i => (arrivals.find? (fun a => a.1 = i)).map (·.2)

/-- The arrivals a run of `transcribe_segment.starmap` over `plan` produces:
for input index `i` with plan entry `(start, end)`, the offset-adjusted
result of the black-box model `worker` on that audio span. -/
def expected_arrivals (plan : List (ℚ × ℚ)) (worker : ℚ × ℚ → WhisperResult) :
    List (Nat × WhisperResult) :=
  (List.enum plan).map fun ip => (ip.1, transcribe_segment ip.2.1 (worker ip.2))

/-- Plain concatenation of a list of strings, in order, as performed by
`output_text += result["text"]`. -/
def concatAll : List String → String
  | [] => ""
  | a :: rest => a ++ concatAll rest

/-- The merged transcript dict built by `transcribe_episode`
(`main.py`, lines 223–244). -/
structure Transcript where
  text : String
  segments : List Segment
  language : String
deriving DecidableEq, Repr

/-- The accumulation loop of `transcribe_episode`: `output_text += result["text"]`,
`output_segments += result["segments"]`, `language = result["language"]`
(last writer), starting from `"" / [] / "en"`. -/
def mergeResults (acc : Transcript) : List WhisperResult → Transcript
  | [] => acc
  | r :: rest =>
      mergeResults
        { text := acc.text ++ r.text
          segments := acc.segments ++ r.segments
          language := r.language } rest

/-- `transcribe_episode` (`main.py`, lines 223–244) restricted to its merge:
the segmentation plan is fanned out via `starmap`, whose results — arriving
in any order — are folded in input order into one transcript. -/
def transcribe_episode (plan : List (ℚ × ℚ))
    (arrivals : List (Nat × WhisperResult)) : Transcript :=
  mergeResults { text := "", segments := [], language := "en" }
    (starmap_collect plan.length arrivals)

/-! ### The episode job body (`src/pod/main.py`, `process_episode`) -/

/-- `EpisodeMetadata` from `podcast.py`. -/
structure EpisodeMetadata where
  publish_date : String
  guid_hash : String
  transcribed : Bool
  original_download_link : String
  language : Option String := none
deriving DecidableEq, Repr

/-- The per-episode slice of the shared volume that `process_episode`
touches: the metadata JSON file's parsed content (`none` when the file is
missing) and whether a transcript JSON file exists. -/
structure FsState where
  metadata : Option EpisodeMetadata
  transcript_exists : Bool
deriving DecidableEq, Repr

/-- Outcome of the external effects inside the `try` body of
`process_episode`: the audio download (`store_original_audio`) and the
dispatched `transcribe_episode.call`, each of which may raise. -/
structure JobEffects where
  download : Except String Unit
  transcription : Except String Unit
  metadata_write : Except String Unit
deriving Repr

/-- The state returned by a run of `process_episode`. -/
structure ProcessOutcome where
  result : Except String EpisodeMetadata
  fs : FsState
  registry : Registry

/-- The `try` body of `process_episode` (`main.py`, lines 267–309): read and
parse the episode metadata, download the audio, then — unless a transcript
file already exists — run `transcribe_episode.call` (which writes the
transcript file) and rewrite the metadata file with `transcribed = True`. -/
def process_episode_body (fs : FsState) (eff : JobEffects) :
    Except String EpisodeMetadata × FsState :=
  match fs.metadata with
  | none => (Except.error "FileNotFoundError", fs)
  | some episode =>
      match eff.download with
      | Except.error e => (Except.error e, fs)
      | Except.ok _ =>
          if fs.transcript_exists then
            (Except.ok episode, fs)
          else
            match eff.transcription with
            | Except.error e => (Except.error e, fs)
            | Except.ok _ =>
                match eff.metadata_write with
                | Except.error e =>
                    (Except.error e, { fs with transcript_exists := true })
                | Except.ok _ =>
                    (Except.ok episode,
                     { metadata := some { episode with transcribed := true }
                       transcript_exists := true })

/-- `process_episode` (`main.py`, lines 261–314): the `try` body above,
followed by the `finally` clause `del container_app.in_progress[episode_id]`.
A Python `del` on an absent key raises `KeyError`, which then replaces the
body's outcome; when the key is present the entry is removed and the body's
outcome (value or exception) propagates. -/
def process_episode (reg : Registry) (episode_id : String) (fs : FsState)
    (eff : JobEffects) : ProcessOutcome :=
  let body := process_episode_body fs eff
  match reg episode_id with
  | some _ =>
      { result := body.1, fs := body.2, registry := reg.erase episode_id }
  | none =>
      { result := Except.error "KeyError", fs := body.2, registry := reg }

/-! ### Status polling (`src/pod/api.py`, `poll_status`) -/

/-- `modal.call_graph.InputStatus` terminal/progress states. -/
inductive InputStatus where
  | PENDING
  | SUCCESS
  | FAILURE
deriving DecidableEq, Repr

/-- `modal.call_graph.InputInfo`: one node of the execution graph. -/
inductive InputInfo where
  | mk (task_id : String) (function_name : String) (status : InputStatus)
      (children : List InputInfo)

/-- Worker identity of a node. -/
def InputInfo.task_id : InputInfo → String
  | .mk t _ _ _ => t

/-- Function name of a node. -/
def InputInfo.function_name : InputInfo → String
  | .mk _ f _ _ => f

/-- Status of a node. -/
def InputInfo.status : InputInfo → InputStatus
  | .mk _ _ s _ => s

/-- Children of a node. -/
def InputInfo.children : InputInfo → List InputInfo
  | .mk _ _ _ c => c

/-- `graph[0].children[0].children[0]`: `none` models the `IndexError`
caught when the tree has not yet reached the expected depth. -/
def mapRoot (graph : List InputInfo) : Option InputInfo :=
  match graph with
  | [] => none
  | root :: _ =>
      match root.children with
      | [] => none
      | c :: _ =>
          match c.children with
          | [] => none
          | m :: _ => some m

/-- The response of `poll_status` after graph inspection: either the shallow
`{finished: false}` (segmentation phase, no counts), the full counters, or
the `assert map_root.function_name == "transcribe_episode"` failing. -/
inductive PollResult where
  | notReady
  | ready (finished : Bool) (total_segments : Nat) (tasks : Nat)
      (done_segments : Nat)
  | assertFail
deriving DecidableEq, Repr

/-- `poll_status` from `api.py`, lines 94–133, restricted to the graph
inspection (the preceding zero-timeout result peek is an external call that
either falls through to this code or short-circuits with an error dict).
`tasks` is the number of distinct `task_id`s over the leaves,
`done_segments` the number of leaves with `SUCCESS` status, `finished`
whether the `transcribe_episode` node itself is `SUCCESS`. -/
def poll_status (graph : List InputInfo) : PollResult :=
  match mapRoot graph with
  | none => PollResult.notReady
  | some map_root =>
      if map_root.function_name = "transcribe_episode" then
        let leaves := map_root.children
        PollResult.ready
          (map_root.status = InputStatus.SUCCESS)
          leaves.length
          ((leaves.map InputInfo.task_id).dedup.length)
          ((leaves.filter fun leaf =>
              leaf.status = InputStatus.SUCCESS).length)
      else
        PollResult.assertFail

/-! ## Theorems -/

/-- C1: a call to the transcribe endpoint with an `InProgressJob` entry of
age strictly below `MAX_JOB_AGE_SECS` returns that entry's `call_id`,
starts no job and leaves the registry untouched; with no entry, or an
entry aged at least `MAX_JOB_AGE_SECS`, it starts a new job, stores a
fresh handle with `start_time = now` under `episode_id` (other keys
unchanged), and returns the new call id. -/
theorem transcribe_job_get_or_start (reg : Registry)
    (episode_id new_call_id : String) (now : Int) :
    (∀ j, reg episode_id = some (RegEntry.job j) →
        now - j.start_time < MAX_JOB_AGE_SECS →
        transcribe_job reg episode_id now new_call_id =
          { call_id := j.call_id, registry := reg, started := false }) ∧
    ((reg episode_id = none ∨
        ∃ j, reg episode_id = some (RegEntry.job j) ∧
          MAX_JOB_AGE_SECS ≤ now - j.start_time) →
      transcribe_job reg episode_id now new_call_id =
        { call_id := new_call_id,
          registry := reg.store episode_id
            (RegEntry.job { call_id := new_call_id, start_time := now }),
          started := true } ∧
      (transcribe_job reg episode_id now new_call_id).registry episode_id =
        some (RegEntry.job { call_id := new_call_id, start_time := now }) ∧
      ∀ k, k ≠ episode_id →
        (transcribe_job reg episode_id now new_call_id).registry k = reg k) := by
  constructor
  · intro j hj hlt
    simp [transcribe_job, hj, hlt]
  · rintro (h | ⟨j, hj, hge⟩)
    · refine ⟨by simp [transcribe_job, h], ?_, ?_⟩ <;>
        simp [transcribe_job, h, Registry.store]
      intro k hk
      simp [hk]
    · refine ⟨by simp [transcribe_job, hj, not_lt.mpr hge], ?_, ?_⟩ <;>
        simp [transcribe_job, hj, not_lt.mpr hge, Registry.store]
      intro k hk
      simp [hk]

/-- Witness for C1 at concrete inputs: a 500-second-old handle is returned
unchanged, and an empty registry leads to a fresh spawn. -/
theorem transcribe_job_get_or_start_witness :
    transcribe_job (fun _ => some (RegEntry.job { call_id := "call-A", start_time := 500 }))
        "ep1" 1000 "call-B" =
      { call_id := "call-A",
        registry := fun _ => some (RegEntry.job { call_id := "call-A", start_time := 500 }),
        started := false } ∧
    transcribe_job (fun _ => none) "ep1" 1000 "call-B" =
      { call_id := "call-B",
        registry := Registry.store (fun _ => none) "ep1"
          (RegEntry.job { call_id := "call-B", start_time := 1000 }),
        started := true } :=
  ⟨(transcribe_job_get_or_start _ "ep1" "call-B" 1000).1
      { call_id := "call-A", start_time := 500 } rfl (by decide),
   ((transcribe_job_get_or_start (fun _ => none) "ep1" "call-B" 1000).2
      (Or.inl rfl)).1⟩

/-- C10: when the registry holds a value for `episode_id` that is not an
`InProgressJob` (a leftover plain-string entry), the endpoint behaves
exactly as if no entry existed: it starts a new job, overwrites the entry
with a fresh handle, and returns the new call id. -/
theorem transcribe_job_stale_str_entry (reg : Registry)
    (episode_id new_call_id s : String) (now : Int)
    (h : reg episode_id = some (RegEntry.str s)) :
    transcribe_job reg episode_id now new_call_id =
      { call_id := new_call_id,
        registry := reg.store episode_id
          (RegEntry.job { call_id := new_call_id, start_time := now }),
        started := true } ∧
    transcribe_job reg episode_id now new_call_id =
      transcribe_job (reg.erase episode_id) episode_id now new_call_id := by
  have h2 : (reg.erase episode_id) episode_id = none := by simp [Registry.erase]
  refine ⟨by simp [transcribe_job, h], ?_⟩
  simp only [transcribe_job, h, h2]
  congr 1
  funext k
  by_cases hk : k = episode_id <;> simp [Registry.store, Registry.erase, hk]

/-- Witness for C10: a leftover string entry is overwritten by a fresh
handle and the new call id is returned. -/
theorem transcribe_job_stale_str_entry_witness :
    transcribe_job (fun _ => some (RegEntry.str "old-call")) "ep1" 1000 "call-B" =
      { call_id := "call-B",
        registry := Registry.store (fun _ => some (RegEntry.str "old-call")) "ep1"
          (RegEntry.job { call_id := "call-B", start_time := 1000 }),
        started := true } :=
  (transcribe_job_stale_str_entry (fun _ => some (RegEntry.str "old-call"))
    "ep1" "call-B" "old-call" 1000 rfl).1

/-- C3: whatever the outcome of the body of `process_episode` — normal
return, or an exception at the metadata read, the audio download, the
transcription, or the metadata write — the `finally` clause leaves no
registry entry for `episode_id` when the call returns or the error
propagates. -/
theorem process_episode_releases_registry (reg : Registry) (episode_id : String)
    (fs : FsState) (eff : JobEffects) :
    (process_episode reg episode_id fs eff).registry episode_id = none := by
  unfold process_episode
  cases h : reg episode_id with
  | none => simpa using h
  | some e => simp [Registry.erase]

/-- Counterexample to C9: a run of `process_episode` in which the
transcript file already exists completes successfully yet leaves the
stored metadata with `transcribed = false` — the `transcribed` flag is
only rewritten on the fresh-transcription path. -/
theorem process_episode_skip_keeps_transcribed_false :
    (process_episode
        (fun _ => some (RegEntry.job { call_id := "c", start_time := 0 })) "ep1"
        { metadata := some
            { publish_date := "2023-01-01", guid_hash := "ep1",
              transcribed := false,
              original_download_link := "http://example.com/a.mp3" }
          transcript_exists := true }
        { download := Except.ok (), transcription := Except.ok (),
          metadata_write := Except.ok () }).result =
      Except.ok
        { publish_date := "2023-01-01", guid_hash := "ep1", transcribed := false,
          original_download_link := "http://example.com/a.mp3" } ∧
    ((process_episode
        (fun _ => some (RegEntry.job { call_id := "c", start_time := 0 })) "ep1"
        { metadata := some
            { publish_date := "2023-01-01", guid_hash := "ep1",
              transcribed := false,
              original_download_link := "http://example.com/a.mp3" }
          transcript_exists := true }
        { download := Except.ok (), transcription := Except.ok (),
          metadata_write := Except.ok () }).fs.metadata).map
        EpisodeMetadata.transcribed = some false :=
  ⟨rfl, rfl⟩

/-- C9 amended: after a successful `process_episode` run that actually
transcribed (no transcript file existed beforehand), the stored metadata
has `transcribed = true` and the transcript file exists; when a transcript
file already existed, the run leaves the file system slice unchanged — in
particular `transcribed` keeps its prior value. -/
theorem process_episode_transcribed_flag (reg : Registry) (episode_id : String)
    (fs : FsState) (eff : JobEffects) (m : EpisodeMetadata) :
    (fs.transcript_exists = false →
      (process_episode reg episode_id fs eff).result = Except.ok m →
      ((process_episode reg episode_id fs eff).fs.metadata).map
          EpisodeMetadata.transcribed = some true ∧
      (process_episode reg episode_id fs eff).fs.transcript_exists = true) ∧
    (fs.transcript_exists = true →
      (process_episode reg episode_id fs eff).fs = fs) := by
  constructor
  · intro hno hok
    cases hreg : reg episode_id with
    | none =>
        rw [process_episode] at hok
        simp [hreg] at hok
    | some e =>
        rw [process_episode] at hok ⊢
        simp only [hreg] at hok ⊢
        rw [process_episode_body] at hok ⊢
        cases hmeta : fs.metadata with
        | none => simp [hmeta] at hok
        | some episode =>
            simp only [hmeta] at hok ⊢
            cases hdl : eff.download with
            | error e1 => simp [hdl] at hok
            | ok u =>
                simp only [hdl, hno] at hok ⊢
                cases htr : eff.transcription with
                | error e2 => simp [htr] at hok
                | ok u2 =>
                    simp only [htr] at hok ⊢
                    cases hwr : eff.metadata_write with
                    | error e3 => simp [hwr] at hok
                    | ok u3 => simp [hwr]
  · intro hyes
    cases hreg : reg episode_id with
    | none =>
        rw [process_episode]
        simp only [hreg]
        rw [process_episode_body]
        cases hmeta : fs.metadata with
        | none => simp
        | some episode =>
            cases hdl : eff.download with
            | error e1 => simp
            | ok u => simp [hyes]
    | some e =>
        rw [process_episode]
        simp only [hreg]
        rw [process_episode_body]
        cases hmeta : fs.metadata with
        | none => simp
        | some episode =>
            cases hdl : eff.download with
            | error e1 => simp
            | ok u => simp [hyes]

/-- Witness for C9's amended statement: a fresh-transcription run ends with
`transcribed = true`, and a skip run leaves the file system unchanged. -/
theorem process_episode_transcribed_flag_witness :
    ((process_episode
        (fun _ => some (RegEntry.job { call_id := "c", start_time := 0 })) "ep1"
        { metadata := some
            { publish_date := "2023-01-01", guid_hash := "ep1",
              transcribed := false,
              original_download_link := "http://example.com/a.mp3" }
          transcript_exists := false }
        { download := Except.ok (), transcription := Except.ok (),
          metadata_write := Except.ok () }).fs.metadata).map
        EpisodeMetadata.transcribed = some true ∧
    (process_episode
        (fun _ => some (RegEntry.job { call_id := "c", start_time := 0 })) "ep1"
        { metadata := some
            { publish_date := "2023-01-01", guid_hash := "ep1",
              transcribed := true,
              original_download_link := "http://example.com/a.mp3" }
          transcript_exists := true }
        { download := Except.ok (), transcription := Except.ok (),
          metadata_write := Except.ok () }).fs =
      { metadata := some
          { publish_date := "2023-01-01", guid_hash := "ep1",
            transcribed := true,
            original_download_link := "http://example.com/a.mp3" }
        transcript_exists := true } :=
  ⟨((process_episode_transcribed_flag
      (fun _ => some (RegEntry.job { call_id := "c", start_time := 0 })) "ep1"
      { metadata := some
          { publish_date := "2023-01-01", guid_hash := "ep1",
            transcribed := false,
            original_download_link := "http://example.com/a.mp3" }
        transcript_exists := false }
      { download := Except.ok (), transcription := Except.ok (),
        metadata_write := Except.ok () }
      { publish_date := "2023-01-01", guid_hash := "ep1", transcribed := false,
        original_download_link := "http://example.com/a.mp3" }).1 rfl rfl).1,
   (process_episode_transcribed_flag
      (fun _ => some (RegEntry.job { call_id := "c", start_time := 0 })) "ep1"
      { metadata := some
          { publish_date := "2023-01-01", guid_hash := "ep1",
            transcribed := true,
            original_download_link := "http://example.com/a.mp3" }
        transcript_exists := true }
      { download := Except.ok (), transcription := Except.ok (),
        metadata_write := Except.ok () }
      { publish_date := "2023-01-01", guid_hash := "ep1", transcribed := true,
        original_download_link := "http://example.com/a.mp3" }).2 rfl⟩

/-- Unfolding of `sjoin` on a cons with nonempty tail. -/
theorem sjoin_cons_of_ne_nil (a : String) (l : List String) (h : l ≠ []) :
    sjoin (a :: l) = a ++ " " ++ sjoin l := by
  cases l with
  | nil => exact absurd rfl h
  | cons b t => rfl

/-- A space-merged head is the same space-join as two heads. -/
theorem sjoin_merge_head (a b : String) (l : List String) :
    sjoin ((a ++ " " ++ b) :: l) = sjoin (a :: b :: l) := by
  cases l with
  | nil => rfl
  | cons c t => simp [sjoin, String.append_assoc]

/-- The emitted prefix of the coalescer loop factors out. -/
theorem coalesceGo_acc (prev : Option Segment) (acc : List Segment)
    (l : List Segment) :
    coalesceGo prev acc l = acc ++ coalesceGo prev [] l := by
  induction l generalizing prev acc with
  | nil => cases prev <;> simp [coalesceGo]
  | cons c t ih =>
      cases prev with
      | none => simpa only [coalesceGo] using ih (some c) acc
      | some p =>
          by_cases hp : p.text.length < minimum_transcript_len
          · simp only [coalesceGo, if_pos hp]
            exact ih _ _
          · simp only [coalesceGo, if_neg hp, List.nil_append]
            rw [ih (some c) (acc ++ [p]), ih (some c) [p], List.append_assoc]

/-- With a pending accumulator the coalescer loop emits at least one
segment. -/
theorem coalesceGo_ne_nil (p : Segment) (l : List Segment) :
    coalesceGo (some p) [] l ≠ [] := by
  induction l generalizing p with
  | nil => simp [coalesceGo]
  | cons c t ih =>
      by_cases hp : p.text.length < minimum_transcript_len
      · simpa only [coalesceGo, if_pos hp] using ih _
      · simp only [coalesceGo, if_neg hp, List.nil_append]
        rw [coalesceGo_acc]
        simp

/-- The coalescer loop emits at most one segment per input plus the
pending one. -/
theorem coalesceGo_length (p : Segment) (l : List Segment) :
    (coalesceGo (some p) [] l).length ≤ l.length + 1 := by
  induction l generalizing p with
  | nil => simp [coalesceGo]
  | cons c t ih =>
      by_cases hp : p.text.length < minimum_transcript_len
      · simp only [coalesceGo, if_pos hp, List.length_cons]
        exact le_trans (ih _) (by omega)
      · simp only [coalesceGo, if_neg hp, List.nil_append, List.length_cons]
        rw [coalesceGo_acc]
        have := ih c
        simp only [List.length_append, List.length_singleton]
        omega

/-- The coalescer loop preserves the space-joined text. -/
theorem coalesceGo_sjoin (p : Segment) (l : List Segment) :
    sjoin ((coalesceGo (some p) [] l).map Segment.text) =
      sjoin (p.text :: l.map Segment.text) := by
  induction l generalizing p with
  | nil => simp [coalesceGo]
  | cons c t ih =>
      by_cases hp : p.text.length < minimum_transcript_len
      · simp only [coalesceGo, if_pos hp]
        rw [ih]
        simp only [_merge_segments, List.map_cons]
        rw [sjoin_merge_head]
      · simp only [coalesceGo, if_neg hp, List.nil_append]
        rw [coalesceGo_acc]
        simp only [List.singleton_append, List.map_cons]
        rw [sjoin_cons_of_ne_nil _ _
            (by simpa using coalesceGo_ne_nil c t), ih c]
        rfl

/-- Every segment the coalescer loop emits except the last is long
enough. -/
theorem coalesceGo_dropLast (p : Segment) (l : List Segment) :
    ∀ s ∈ (coalesceGo (some p) [] l).dropLast,
      minimum_transcript_len ≤ s.text.length := by
  induction l generalizing p with
  | nil => simp [coalesceGo]
  | cons c t ih =>
      by_cases hp : p.text.length < minimum_transcript_len
      · simp only [coalesceGo, if_pos hp]
        exact ih _
      · simp only [coalesceGo, if_neg hp, List.nil_append]
        rw [coalesceGo_acc]
        intro s hs
        rw [List.singleton_append,
            List.dropLast_cons_of_ne_nil (coalesceGo_ne_nil c t)] at hs
        rcases List.mem_cons.mp hs with h | h
        · subst h; exact not_lt.mp hp
        · exact ih c s h

/-- C7: the coalescer returns `[]` on `[]` and `[s]` on `[s]`; every
output segment except possibly the last has text length at least
`minimum_transcript_len`; the space-joined output text equals the
space-joined input text; and the output has at most as many segments as
the input. -/
theorem coalesce_short_transcript_segments_spec :
    coalesce_short_transcript_segments [] = [] ∧
    (∀ s : Segment, coalesce_short_transcript_segments [s] = [s]) ∧
    ∀ segments : List Segment,
      (∀ s ∈ (coalesce_short_transcript_segments segments).dropLast,
          minimum_transcript_len ≤ s.text.length) ∧
      sjoin ((coalesce_short_transcript_segments segments).map Segment.text) =
        sjoin (segments.map Segment.text) ∧
      (coalesce_short_transcript_segments segments).length ≤ segments.length := by
  refine ⟨rfl, fun s => rfl, fun segments => ?_⟩
  cases segments with
  | nil => exact ⟨by simp [coalesce_short_transcript_segments, coalesceGo], rfl, le_refl _⟩
  | cons c t =>
      have h1 : coalesce_short_transcript_segments (c :: t) =
          coalesceGo (some c) [] t := rfl
      refine ⟨?_, ?_, ?_⟩
      · rw [h1]; exact coalesceGo_dropLast c t
      · rw [h1, coalesceGo_sjoin]
        simp
      · rw [h1]
        simpa using coalesceGo_length c t

set_option maxRecDepth 4096 in
/-- Witness for C7 at a concrete two-segment input whose first text is 210
characters long: the first output segment is long enough, the space-joined
text is preserved, and no segments are added. -/
theorem coalesce_short_transcript_segments_spec_witness :
    minimum_transcript_len ≤
      (Segment.mk "xxxxxxxxxxxxxxxxxxxxxxxxxxxxxxxxxxxxxxxxxxxxxxxxxxxxxxxxxxxxxxxxxxxxxxxxxxxxxxxxxxxxxxxxxxxxxxxxxxxxxxxxxxxxxxxxxxxxxxxxxxxxxxxxxxxxxxxxxxxxxxxxxxxxxxxxxxxxxxxxxxxxxxxxxxxxxxxxxxxxxxxxxxxxxxxxxxxxxxxxxxxxxxxxxx" 0 10).text.length ∧
    sjoin ((coalesce_short_transcript_segments
        [Segment.mk "xxxxxxxxxxxxxxxxxxxxxxxxxxxxxxxxxxxxxxxxxxxxxxxxxxxxxxxxxxxxxxxxxxxxxxxxxxxxxxxxxxxxxxxxxxxxxxxxxxxxxxxxxxxxxxxxxxxxxxxxxxxxxxxxxxxxxxxxxxxxxxxxxxxxxxxxxxxxxxxxxxxxxxxxxxxxxxxxxxxxxxxxxxxxxxxxxxxxxxxxxxxxxxxxxx" 0 10,
         Segment.mk "tail" 10 12]).map Segment.text) =
      sjoin ([Segment.mk "xxxxxxxxxxxxxxxxxxxxxxxxxxxxxxxxxxxxxxxxxxxxxxxxxxxxxxxxxxxxxxxxxxxxxxxxxxxxxxxxxxxxxxxxxxxxxxxxxxxxxxxxxxxxxxxxxxxxxxxxxxxxxxxxxxxxxxxxxxxxxxxxxxxxxxxxxxxxxxxxxxxxxxxxxxxxxxxxxxxxxxxxxxxxxxxxxxxxxxxxxxxxxxxxxx" 0 10,
              Segment.mk "tail" 10 12].map Segment.text) ∧
    (coalesce_short_transcript_segments
        [Segment.mk "xxxxxxxxxxxxxxxxxxxxxxxxxxxxxxxxxxxxxxxxxxxxxxxxxxxxxxxxxxxxxxxxxxxxxxxxxxxxxxxxxxxxxxxxxxxxxxxxxxxxxxxxxxxxxxxxxxxxxxxxxxxxxxxxxxxxxxxxxxxxxxxxxxxxxxxxxxxxxxxxxxxxxxxxxxxxxxxxxxxxxxxxxxxxxxxxxxxxxxxxxxxxxxxxxx" 0 10,
         Segment.mk "tail" 10 12]).length ≤ 2 := by
  have h := coalesce_short_transcript_segments_spec.2.2
      [Segment.mk "xxxxxxxxxxxxxxxxxxxxxxxxxxxxxxxxxxxxxxxxxxxxxxxxxxxxxxxxxxxxxxxxxxxxxxxxxxxxxxxxxxxxxxxxxxxxxxxxxxxxxxxxxxxxxxxxxxxxxxxxxxxxxxxxxxxxxxxxxxxxxxxxxxxxxxxxxxxxxxxxxxxxxxxxxxxxxxxxxxxxxxxxxxxxxxxxxxxxxxxxxxxxxxxxxx" 0 10,
       Segment.mk "tail" 10 12]
  have hlong : ¬ (("xxxxxxxxxxxxxxxxxxxxxxxxxxxxxxxxxxxxxxxxxxxxxxxxxxxxxxxxxxxxxxxxxxxxxxxxxxxxxxxxxxxxxxxxxxxxxxxxxxxxxxxxxxxxxxxxxxxxxxxxxxxxxxxxxxxxxxxxxxxxxxxxxxxxxxxxxxxxxxxxxxxxxxxxxxxxxxxxxxxxxxxxxxxxxxxxxxxxxxxxxxxxxxxxxx" : String).length <
      minimum_transcript_len) := by decide
  have hmem : Segment.mk "xxxxxxxxxxxxxxxxxxxxxxxxxxxxxxxxxxxxxxxxxxxxxxxxxxxxxxxxxxxxxxxxxxxxxxxxxxxxxxxxxxxxxxxxxxxxxxxxxxxxxxxxxxxxxxxxxxxxxxxxxxxxxxxxxxxxxxxxxxxxxxxxxxxxxxxxxxxxxxxxxxxxxxxxxxxxxxxxxxxxxxxxxxxxxxxxxxxxxxxxxxxxxxxxxx" 0 10 ∈
      (coalesce_short_transcript_segments
        [Segment.mk "xxxxxxxxxxxxxxxxxxxxxxxxxxxxxxxxxxxxxxxxxxxxxxxxxxxxxxxxxxxxxxxxxxxxxxxxxxxxxxxxxxxxxxxxxxxxxxxxxxxxxxxxxxxxxxxxxxxxxxxxxxxxxxxxxxxxxxxxxxxxxxxxxxxxxxxxxxxxxxxxxxxxxxxxxxxxxxxxxxxxxxxxxxxxxxxxxxxxxxxxxxxxxxxxxx" 0 10,
         Segment.mk "tail" 10 12]).dropLast := by
    simp only [coalesce_short_transcript_segments, coalesceGo, hlong, if_neg,
      List.nil_append, if_false]
    simp
  exact ⟨h.1 _ hmem, h.2.1, h.2.2⟩

/-- C8: on a graph that lacks the expected depth `poll_status` reports
`finished = false` with no segment counts; on a graph with the expected
depth whose map root is the `transcribe_episode` node, it reports
`total_segments` = number of leaves, `done_segments` = number of leaves in
`SUCCESS` state, `tasks` = number of distinct worker `task_id`s over the
leaves, and `finished` iff the map root itself is in `SUCCESS` state; and
when the map root is `SUCCESS` and — as the dispatch substrate guarantees
for a successfully completed `starmap` — every leaf is `SUCCESS`, it
reports `finished = true` with `done_segments = total_segments`. -/
theorem poll_status_spec :
    (∀ graph : List InputInfo, mapRoot graph = none →
      poll_status graph = PollResult.notReady) ∧
    (∀ (graph : List InputInfo) (m : InputInfo),
      mapRoot graph = some m → m.function_name = "transcribe_episode" →
      poll_status graph =
        PollResult.ready (decide (m.status = InputStatus.SUCCESS))
          m.children.length
          ((m.children.map InputInfo.task_id).toFinset.card)
          ((m.children.filter fun leaf =>
              leaf.status = InputStatus.SUCCESS).length)) ∧
    (∀ (graph : List InputInfo) (m : InputInfo),
      mapRoot graph = some m → m.function_name = "transcribe_episode" →
      m.status = InputStatus.SUCCESS →
      (∀ leaf ∈ m.children, leaf.status = InputStatus.SUCCESS) →
      poll_status graph =
        PollResult.ready true m.children.length
          ((m.children.map InputInfo.task_id).toFinset.card)
          m.children.length) := by
  have hfull : ∀ (graph : List InputInfo) (m : InputInfo),
      mapRoot graph = some m → m.function_name = "transcribe_episode" →
      poll_status graph =
        PollResult.ready (decide (m.status = InputStatus.SUCCESS))
          m.children.length
          ((m.children.map InputInfo.task_id).toFinset.card)
          ((m.children.filter fun leaf =>
              leaf.status = InputStatus.SUCCESS).length) := by
    intro graph m hm hname
    unfold poll_status
    rw [hm]
    simp only [hname, if_pos]
    rw [List.card_toFinset]
  refine ⟨?_, hfull, ?_⟩
  · intro graph hnone
    unfold poll_status
    rw [hnone]
  · intro graph m hm hname hsucc hleaves
    rw [hfull graph m hm hname, hsucc]
    have hfilter : (m.children.filter fun leaf =>
        leaf.status = InputStatus.SUCCESS).length = m.children.length := by
      rw [List.filter_eq_self.mpr]
      intro a ha
      simpa using hleaves a ha
    rw [hfilter]
    simp

/-- Witness for C8: a graph with five leaves of which three succeeded and a
pending map root yields `finished = false, total = 5, tasks = 4, done = 3`;
the fully successful variant yields `finished = true` with `done = total`;
and a one-level graph is still in the segmentation phase. -/
theorem poll_status_spec_witness :
    poll_status
      [InputInfo.mk "t-root" "fastapi_app" InputStatus.PENDING
        [InputInfo.mk "t-proc" "process_episode" InputStatus.PENDING
          [InputInfo.mk "t-map" "transcribe_episode" InputStatus.PENDING
            [InputInfo.mk "w1" "transcribe_segment" InputStatus.SUCCESS [],
             InputInfo.mk "w1" "transcribe_segment" InputStatus.SUCCESS [],
             InputInfo.mk "w2" "transcribe_segment" InputStatus.SUCCESS [],
             InputInfo.mk "w3" "transcribe_segment" InputStatus.PENDING [],
             InputInfo.mk "w4" "transcribe_segment" InputStatus.PENDING []]]]] =
      PollResult.ready false 5 4 3 ∧
    poll_status
      [InputInfo.mk "t-root" "fastapi_app" InputStatus.SUCCESS
        [InputInfo.mk "t-proc" "process_episode" InputStatus.SUCCESS
          [InputInfo.mk "t-map" "transcribe_episode" InputStatus.SUCCESS
            [InputInfo.mk "w1" "transcribe_segment" InputStatus.SUCCESS [],
             InputInfo.mk "w1" "transcribe_segment" InputStatus.SUCCESS [],
             InputInfo.mk "w2" "transcribe_segment" InputStatus.SUCCESS [],
             InputInfo.mk "w3" "transcribe_segment" InputStatus.SUCCESS [],
             InputInfo.mk "w4" "transcribe_segment" InputStatus.SUCCESS []]]]] =
      PollResult.ready true 5 4 5 ∧
    poll_status [InputInfo.mk "t-root" "fastapi_app" InputStatus.PENDING []] =
      PollResult.notReady := by
  refine ⟨?_, ?_, ?_⟩
  · exact (poll_status_spec.2.1
      [InputInfo.mk "t-root" "fastapi_app" InputStatus.PENDING
        [InputInfo.mk "t-proc" "process_episode" InputStatus.PENDING
          [InputInfo.mk "t-map" "transcribe_episode" InputStatus.PENDING
            [InputInfo.mk "w1" "transcribe_segment" InputStatus.SUCCESS [],
             InputInfo.mk "w1" "transcribe_segment" InputStatus.SUCCESS [],
             InputInfo.mk "w2" "transcribe_segment" InputStatus.SUCCESS [],
             InputInfo.mk "w3" "transcribe_segment" InputStatus.PENDING [],
             InputInfo.mk "w4" "transcribe_segment" InputStatus.PENDING []]]]]
      (InputInfo.mk "t-map" "transcribe_episode" InputStatus.PENDING
        [InputInfo.mk "w1" "transcribe_segment" InputStatus.SUCCESS [],
         InputInfo.mk "w1" "transcribe_segment" InputStatus.SUCCESS [],
         InputInfo.mk "w2" "transcribe_segment" InputStatus.SUCCESS [],
         InputInfo.mk "w3" "transcribe_segment" InputStatus.PENDING [],
         InputInfo.mk "w4" "transcribe_segment" InputStatus.PENDING []])
      rfl rfl).trans (by decide)
  · exact (poll_status_spec.2.2
      [InputInfo.mk "t-root" "fastapi_app" InputStatus.SUCCESS
        [InputInfo.mk "t-proc" "process_episode" InputStatus.SUCCESS
          [InputInfo.mk "t-map" "transcribe_episode" InputStatus.SUCCESS
            [InputInfo.mk "w1" "transcribe_segment" InputStatus.SUCCESS [],
             InputInfo.mk "w1" "transcribe_segment" InputStatus.SUCCESS [],
             InputInfo.mk "w2" "transcribe_segment" InputStatus.SUCCESS [],
             InputInfo.mk "w3" "transcribe_segment" InputStatus.SUCCESS [],
             InputInfo.mk "w4" "transcribe_segment" InputStatus.SUCCESS []]]]]
      (InputInfo.mk "t-map" "transcribe_episode" InputStatus.SUCCESS
        [InputInfo.mk "w1" "transcribe_segment" InputStatus.SUCCESS [],
         InputInfo.mk "w1" "transcribe_segment" InputStatus.SUCCESS [],
         InputInfo.mk "w2" "transcribe_segment" InputStatus.SUCCESS [],
         InputInfo.mk "w3" "transcribe_segment" InputStatus.SUCCESS [],
         InputInfo.mk "w4" "transcribe_segment" InputStatus.SUCCESS []])
      rfl rfl rfl (by decide)).trans (by decide)
  · exact poll_status_spec.1
      [InputInfo.mk "t-root" "fastapi_app" InputStatus.PENDING []] rfl

/-- Structural invariants of the segmentation loop: the yielded segments
are contiguous, the first (if any) starts at `cur_start`, the last (if
any) ends at the final `cur_start`, and with no yields the final
`cur_start` is the initial one. -/
theorem splitLoop_struct (min_segment_length : ℚ) :
    ∀ (marks : List SilenceMark) (cur_start : ℚ),
    List.Chain' (fun p q : ℚ × ℚ => p.2 = q.1)
      (splitLoop min_segment_length cur_start marks).1 ∧
    (∀ x ∈ (splitLoop min_segment_length cur_start marks).1.head?,
      x.1 = cur_start) ∧
    (∀ x ∈ (splitLoop min_segment_length cur_start marks).1.getLast?,
      x.2 = (splitLoop min_segment_length cur_start marks).2) ∧
    ((splitLoop min_segment_length cur_start marks).1 = [] →
      (splitLoop min_segment_length cur_start marks).2 = cur_start) := by
  intro marks
  induction marks with
  | nil => intro cur; simp [splitLoop]
  | cons m rest ih =>
      intro cur
      by_cases h : m.silence_end - m.silence_dur / 2 - cur < min_segment_length
      · simpa only [splitLoop, if_pos h] using ih cur
      · obtain ⟨ihc, ihh, ihl, ihe⟩ := ih (m.silence_end - m.silence_dur / 2)
        refine ⟨?_, ?_, ?_, ?_⟩ <;> simp only [splitLoop, if_neg h]
        · rw [List.chain'_cons']
          exact ⟨fun y hy => (ihh y hy).symm, ihc⟩
        · simp
        · intro x hx
          rcases hl : (splitLoop min_segment_length
              (m.silence_end - m.silence_dur / 2) rest).1 with _ | ⟨a, t⟩
          · rw [hl] at hx
            simp only [List.getLast?_singleton, Option.mem_def,
              Option.some.injEq] at hx
            rw [← hx, ihe hl]
          · rw [hl, List.getLast?_cons_cons, ← hl] at hx
            exact ihl x hx
        · intro hcontra
          simp at hcontra

/-- Every segment the segmentation loop yields is at least the minimum
segment length. -/
theorem splitLoop_min_length (min_segment_length : ℚ) :
    ∀ (marks : List SilenceMark) (cur_start : ℚ),
    ∀ s ∈ (splitLoop min_segment_length cur_start marks).1,
      min_segment_length ≤ s.2 - s.1 := by
  intro marks
  induction marks with
  | nil => intro cur s hs; simp [splitLoop] at hs
  | cons m rest ih =>
      intro cur s hs
      by_cases h : m.silence_end - m.silence_dur / 2 - cur < min_segment_length
      · rw [splitLoop] at hs
        simp only [if_pos h] at hs
        exact ih cur s hs
      · rw [splitLoop] at hs
        simp only [if_neg h] at hs
        rcases List.mem_cons.mp hs with rfl | hs'
        · exact not_lt.mp h
        · exact ih _ s hs'

/-- Every segment the segmentation loop yields ends at an accepted
candidate split point of one of the silence marks. -/
theorem splitLoop_end_mem (min_segment_length : ℚ) :
    ∀ (marks : List SilenceMark) (cur_start : ℚ),
    ∀ s ∈ (splitLoop min_segment_length cur_start marks).1,
      s.2 ∈ marks.map (fun m => m.silence_end - m.silence_dur / 2) := by
  intro marks
  induction marks with
  | nil => intro cur s hs; simp [splitLoop] at hs
  | cons m rest ih =>
      intro cur s hs
      by_cases h : m.silence_end - m.silence_dur / 2 - cur < min_segment_length
      · rw [splitLoop] at hs
        simp only [if_pos h] at hs
        exact List.mem_cons_of_mem _ (ih cur s hs)
      · rw [splitLoop] at hs
        simp only [if_neg h] at hs
        rcases List.mem_cons.mp hs with rfl | hs'
        · exact List.mem_cons_self _ _
        · exact List.mem_cons_of_mem _ (ih _ s hs')

/-- The final `cur_start` of the segmentation loop is the initial one or an
accepted candidate split point. -/
theorem splitLoop_final (min_segment_length : ℚ) :
    ∀ (marks : List SilenceMark) (cur_start : ℚ),
    (splitLoop min_segment_length cur_start marks).2 = cur_start ∨
      (splitLoop min_segment_length cur_start marks).2 ∈
        marks.map (fun m => m.silence_end - m.silence_dur / 2) := by
  intro marks
  induction marks with
  | nil => intro cur; left; rfl
  | cons m rest ih =>
      intro cur
      by_cases h : m.silence_end - m.silence_dur / 2 - cur < min_segment_length
      · rw [splitLoop]
        simp only [if_pos h]
        rcases ih cur with h1 | h1
        · exact Or.inl h1
        · exact Or.inr (List.mem_cons_of_mem _ h1)
      · rw [splitLoop]
        simp only [if_neg h]
        rcases ih (m.silence_end - m.silence_dur / 2) with h1 | h1
        · right
          rw [h1, List.map_cons]
          exact List.mem_cons_self _ _
        · exact Or.inr (List.mem_cons_of_mem _ h1)

/-- Contiguous segments of length at least a positive minimum are strictly
ordered by start time and non-overlapping. -/
theorem chain'_strict_of_contig (min_segment_length : ℚ)
    (hmin : 0 < min_segment_length) :
    ∀ (l : List (ℚ × ℚ)), List.Chain' (fun p q : ℚ × ℚ => p.2 = q.1) l →
    (∀ s ∈ l, min_segment_length ≤ s.2 - s.1) →
    List.Chain' (fun p q : ℚ × ℚ => p.1 < q.1 ∧ p.2 ≤ q.1) l := by
  intro l
  induction l with
  | nil => intro _ _; simp
  | cons a t ih =>
      intro hc hlen
      cases t with
      | nil => simp
      | cons b t2 =>
          rw [List.chain'_cons] at hc ⊢
          obtain ⟨hab, hct⟩ := hc
          have ha : min_segment_length ≤ a.2 - a.1 := hlen a (List.mem_cons_self _ _)
          refine ⟨⟨?_, le_of_eq hab⟩, ?_⟩
          · rw [← hab]; linarith
          · exact ih hct fun s hs => hlen s (List.mem_cons_of_mem _ hs)

/-- C5: with a positive minimum segment length, the segments yielded by
`split_silences` start at `0.0`, are contiguous (each starts exactly where
the previous one ends), each has length at least the minimum (so a
trailing tail shorter than the minimum is never emitted), they are
strictly ordered by start time and non-overlapping, and every segment ends
either at the audio duration or at an accepted candidate split point
`silence_end - silence_duration / 2`. -/
theorem split_silences_spec (duration : ℚ) (marks : List SilenceMark)
    (min_segment_length : ℚ) (hmin : 0 < min_segment_length) :
    (∀ x ∈ (split_silences duration marks min_segment_length).head?, x.1 = 0) ∧
    List.Chain' (fun p q : ℚ × ℚ => p.2 = q.1)
      (split_silences duration marks min_segment_length) ∧
    (∀ s ∈ split_silences duration marks min_segment_length,
      min_segment_length ≤ s.2 - s.1) ∧
    List.Chain' (fun p q : ℚ × ℚ => p.1 < q.1 ∧ p.2 ≤ q.1)
      (split_silences duration marks min_segment_length) ∧
    (∀ s ∈ split_silences duration marks min_segment_length,
      s.2 = duration ∨
        s.2 ∈ marks.map (fun m => m.silence_end - m.silence_dur / 2)) := by
  obtain ⟨hc, hh, hl, he⟩ := splitLoop_struct min_segment_length marks 0
  have hml := splitLoop_min_length min_segment_length marks 0
  have hem := splitLoop_end_mem min_segment_length marks 0
  by_cases hcond : duration > (splitLoop min_segment_length 0 marks).2 ∧
      duration - (splitLoop min_segment_length 0 marks).2 > min_segment_length
  · have hseg : split_silences duration marks min_segment_length =
        (splitLoop min_segment_length 0 marks).1 ++
          [((splitLoop min_segment_length 0 marks).2, duration)] := by
      simp only [split_silences, if_pos hcond]
    have hhead : ∀ x ∈ (split_silences duration marks min_segment_length).head?,
        x.1 = 0 := by
      rw [hseg]
      rcases hl0 : (splitLoop min_segment_length 0 marks).1 with _ | ⟨a, t⟩
      · intro x hx
        simp only [List.nil_append, List.head?_cons, Option.mem_def,
          Option.some.injEq] at hx
        rw [← hx]
        exact he hl0
      · intro x hx
        rw [List.cons_append, List.head?_cons, Option.mem_def,
          Option.some.injEq] at hx
        have := hh x
        rw [hl0] at this
        exact this (by rw [← hx]; rfl)
    have hchain : List.Chain' (fun p q : ℚ × ℚ => p.2 = q.1)
        (split_silences duration marks min_segment_length) := by
      rw [hseg, List.chain'_append]
      refine ⟨hc, by simp, ?_⟩
      intro x hx y hy
      simp only [List.head?_cons, Option.mem_def, Option.some.injEq] at hy
      rw [← hy]
      exact hl x hx
    have hlen : ∀ s ∈ split_silences duration marks min_segment_length,
        min_segment_length ≤ s.2 - s.1 := by
      rw [hseg]
      intro s hs
      rcases List.mem_append.mp hs with hs' | hs'
      · exact hml s hs'
      · rcases List.mem_singleton.mp hs' with rfl
        exact le_of_lt hcond.2
    refine ⟨hhead, hchain, hlen,
      chain'_strict_of_contig min_segment_length hmin _ hchain hlen, ?_⟩
    rw [hseg]
    intro s hs
    rcases List.mem_append.mp hs with hs' | hs'
    · exact Or.inr (hem s hs')
    · rcases List.mem_singleton.mp hs' with rfl
      exact Or.inl rfl
  · have hseg : split_silences duration marks min_segment_length =
        (splitLoop min_segment_length 0 marks).1 := by
      simp only [split_silences, if_neg hcond]
    rw [hseg]
    refine ⟨hh, hc, hml, chain'_strict_of_contig min_segment_length hmin _ hc hml,
      fun s hs => Or.inr (hem s hs)⟩

/-- Witness for C5 at a concrete run: duration 100, silences ending at 40
and 50 (each 2 s long), minimum length 30. -/
theorem split_silences_spec_witness :
    (0 : ℚ) < 30 ∧
    ((∀ x ∈ (split_silences 100
        [{ silence_end := 40, silence_dur := 2 },
         { silence_end := 50, silence_dur := 2 }] 30).head?, x.1 = 0) ∧
     List.Chain' (fun p q : ℚ × ℚ => p.2 = q.1)
       (split_silences 100
         [{ silence_end := 40, silence_dur := 2 },
          { silence_end := 50, silence_dur := 2 }] 30) ∧
     (∀ s ∈ split_silences 100
         [{ silence_end := 40, silence_dur := 2 },
          { silence_end := 50, silence_dur := 2 }] 30,
       (30 : ℚ) ≤ s.2 - s.1) ∧
     List.Chain' (fun p q : ℚ × ℚ => p.1 < q.1 ∧ p.2 ≤ q.1)
       (split_silences 100
         [{ silence_end := 40, silence_dur := 2 },
          { silence_end := 50, silence_dur := 2 }] 30) ∧
     (∀ s ∈ split_silences 100
         [{ silence_end := 40, silence_dur := 2 },
          { silence_end := 50, silence_dur := 2 }] 30,
       s.2 = 100 ∨
         s.2 ∈ [{ silence_end := (40:ℚ), silence_dur := (2:ℚ) },
                { silence_end := 50, silence_dur := 2 }].map
             (fun m => SilenceMark.silence_end m - SilenceMark.silence_dur m / 2))) :=
  ⟨by norm_num,
   split_silences_spec 100
     [{ silence_end := 40, silence_dur := 2 },
      { silence_end := 50, silence_dur := 2 }] 30 (by norm_num)⟩

/-- Counterexample to C6: a silence mark whose reported end (200) lies far
beyond the audio duration (100) makes `split_silences` yield the single
segment `(0, 199)`, whose total length 199 exceeds the duration — only the
trailing tail is guarded against overshooting silence ends, not accepted
candidate splits. -/
theorem split_silences_overshoot :
    split_silences 100 [{ silence_end := 200, silence_dur := 2 }] 30 =
      [((0 : ℚ), (199 : ℚ))] ∧
    ¬ (((split_silences 100 [{ silence_end := 200, silence_dur := 2 }] 30).map
        (fun s => s.2 - s.1)).sum ≤ 100) := by
  have h1 : split_silences 100 [{ silence_end := 200, silence_dur := 2 }] 30 =
      [((0 : ℚ), (199 : ℚ))] := by
    norm_num [split_silences, splitLoop]
  refine ⟨h1, ?_⟩
  rw [h1]
  norm_num

/-- Telescoping sum: for a contiguous chain of segments, the total length
is the last end minus the first start. -/
theorem sum_contig :
    ∀ (t : List (ℚ × ℚ)) (a : ℚ × ℚ),
    List.Chain' (fun p q : ℚ × ℚ => p.2 = q.1) (a :: t) →
    ∀ y ∈ (a :: t).getLast?,
      ((a :: t).map fun s => s.2 - s.1).sum = y.2 - a.1 := by
  intro t
  induction t with
  | nil =>
      intro a _ y hy
      simp only [List.getLast?_singleton, Option.mem_def,
        Option.some.injEq] at hy
      subst hy
      simp
  | cons b t2 ih =>
      intro a hc y hy
      rw [List.chain'_cons] at hc
      rw [List.getLast?_cons_cons] at hy
      have hrec := ih b hc.2 y hy
      simp only [List.map_cons, List.sum_cons] at hrec ⊢
      rw [hrec, hc.1]
      ring

/-- C6 amended: provided every candidate split point lies within the audio
duration (the regime the code's own comment assumes away for accepted
splits) and the duration is non-negative, the total length of the yielded
segments never exceeds the duration; and with a positive minimum segment
length every yielded segment has strictly positive length, so a segment of
non-positive computed length is never yielded. -/
theorem split_silences_duration_bound (duration : ℚ) (marks : List SilenceMark)
    (min_segment_length : ℚ) (hmin : 0 < min_segment_length)
    (hdur : 0 ≤ duration)
    (hmarks : ∀ m ∈ marks, m.silence_end - m.silence_dur / 2 ≤ duration) :
    ((split_silences duration marks min_segment_length).map
      (fun s => s.2 - s.1)).sum ≤ duration ∧
    ∀ s ∈ split_silences duration marks min_segment_length, 0 < s.2 - s.1 := by
  obtain ⟨hh, hchain, hlen, _, hends⟩ :=
    split_silences_spec duration marks min_segment_length hmin
  constructor
  · by_cases hemp : split_silences duration marks min_segment_length = []
    · rw [hemp]; simpa using hdur
    · obtain ⟨a, t, hl⟩ : ∃ a t,
          split_silences duration marks min_segment_length = a :: t := by
        rcases hll : split_silences duration marks min_segment_length with _ | ⟨a, t⟩
        · exact absurd hll hemp
        · exact ⟨a, t, rfl⟩
      obtain ⟨y, hy⟩ : ∃ y, (split_silences duration marks
          min_segment_length).getLast? = some y :=
        Option.isSome_iff_exists.mp (List.getLast?_isSome.mpr hemp)
      have hx : (split_silences duration marks min_segment_length).head? =
          some a := by rw [hl]; rfl
      have hchain' := hchain
      rw [hl] at hchain' hy
      have hsum := sum_contig t a hchain' y hy
      have ha0 : a.1 = 0 := hh a hx
      have hyd : y.2 ≤ duration := by
        rcases hends y (by
          rw [hl]
          exact List.mem_of_mem_getLast? hy) with h | h
        · exact le_of_eq h
        · obtain ⟨m, hm, hm2⟩ := List.mem_map.mp h
          rw [← hm2]
          exact hmarks m hm
      rw [hl, hsum, ha0]
      linarith
  · intro s hs
    have := hlen s hs
    linarith

/-- Witness for C6's amended statement at a concrete run: one silence mark
with split point 39 inside a 100-second audio, minimum length 30. -/
theorem split_silences_duration_bound_witness :
    (0 : ℚ) < 30 ∧ (0 : ℚ) ≤ 100 ∧
    (((split_silences 100 [{ silence_end := 40, silence_dur := 2 }] 30).map
        (fun s => s.2 - s.1)).sum ≤ 100 ∧
      ∀ s ∈ split_silences 100 [{ silence_end := 40, silence_dur := 2 }] 30,
        0 < s.2 - s.1) :=
  ⟨by norm_num, by norm_num,
   split_silences_duration_bound 100 [{ silence_end := 40, silence_dur := 2 }]
     30 (by norm_num) (by norm_num)
     (by
       intro m hm
       rcases List.mem_singleton.mp hm with rfl
       norm_num)⟩

/-- Looking up an input index in an enumerated result list. -/
theorem find?_enumFrom (L : List WhisperResult) :
    ∀ (n i : Nat),
    (L.enumFrom n).find? (fun a => a.1 = i) =
      if n ≤ i then (L.get? (i - n)).map (fun b => (i, b)) else none := by
  induction L with
  | nil => intro n i; cases Nat.decLe n i <;> simp [List.enumFrom]
  | cons x L ih =>
      intro n i
      by_cases hni : n = i
      · subst hni
        rw [List.enumFrom_cons, List.find?_cons_of_pos _ (by simp)]
        simp
      · rw [List.enumFrom_cons, List.find?_cons_of_neg _ (by simpa using hni),
          ih (n + 1) i]
        rcases Nat.lt_trichotomy n i with hlt | heq | hgt
        · rw [if_pos (Nat.succ_le_of_lt hlt), if_pos (le_of_lt hlt)]
          have : i - n = (i - (n + 1)) + 1 := by omega
          rw [this]
          rfl
        · exact absurd heq hni
        · rw [if_neg (by omega), if_neg (by omega)]

/-- `find?` over a permutation of a list with pairwise-distinct keys. -/
theorem find?_eq_of_perm {l₁ l₂ : List (Nat × WhisperResult)}
    (h : l₁.Perm l₂) (hnd : (l₂.map Prod.fst).Nodup) (i : Nat) :
    l₁.find? (fun a => a.1 = i) = l₂.find? (fun a => a.1 = i) := by
  cases hfind : l₁.find? (fun a => a.1 = i) with
  | none =>
      have hnone : ∀ x ∈ l₂, ¬ ((fun a : Nat × WhisperResult => a.1 = i) x : Bool) = true := by
        intro x hx
        exact List.find?_eq_none.mp hfind x (h.mem_iff.mpr hx)
      exact (List.find?_eq_none.mpr hnone).symm
  | some x =>
      have hx1 : x ∈ l₂ := h.mem_iff.mp (List.mem_of_find?_eq_some hfind)
      have hxp : x.1 = i := by simpa using List.find?_some hfind
      cases hfind2 : l₂.find? (fun a => a.1 = i) with
      | none =>
          have hnp := List.find?_eq_none.mp hfind2 x hx1
          simp only [decide_eq_true_eq] at hnp
          exact absurd hxp hnp
      | some y =>
          have hy1 : y ∈ l₂ := List.mem_of_find?_eq_some hfind2
          have hyp : y.1 = i := by simpa using List.find?_some hfind2
          have : x = y :=
            List.inj_on_of_nodup_map hnd hx1 hy1 (by rw [hxp, hyp])
          rw [this]

/-- Recovering a list by looking up every index in turn. -/
theorem filterMap_range_get? (L : List WhisperResult) :
    (List.range L.length).filterMap (fun i => L.get? i) = L := by
  induction L with
  | nil => rfl
  | cons x L ih =>
      rw [List.length_cons, List.range_succ_eq_map, List.filterMap_cons,
        List.filterMap_map]
      show x :: List.filterMap (fun i => L.get? i) (List.range L.length) = x :: L
      rw [ih]

/-- The keys of the expected arrivals are exactly the input indices. -/
theorem expected_arrivals_keys (plan : List (ℚ × ℚ))
    (worker : ℚ × ℚ → WhisperResult) :
    (expected_arrivals plan worker).map Prod.fst = List.range plan.length := by
  unfold expected_arrivals
  rw [List.map_map]
  have : (Prod.fst ∘ fun ip : Nat × (ℚ × ℚ) =>
      (ip.1, transcribe_segment ip.2.1 (worker ip.2))) = Prod.fst := by
    funext ip; rfl
  rw [this, List.enum_map_fst]

/-- Collecting the arrivals of a `starmap` run — in whatever completion
order they came — yields the per-input results in input order. -/
theorem starmap_collect_expected (plan : List (ℚ × ℚ))
    (worker : ℚ × ℚ → WhisperResult) (arrivals : List (Nat × WhisperResult))
    (harr : arrivals.Perm (expected_arrivals plan worker)) :
    starmap_collect plan.length arrivals =
      plan.map fun p => transcribe_segment p.1 (worker p) := by
  have hexp : expected_arrivals plan worker =
      (plan.map fun p => transcribe_segment p.1 (worker p)).enum := by
    rw [List.enum_map]
    unfold expected_arrivals
    have : (Prod.map id fun p : ℚ × ℚ => transcribe_segment p.1 (worker p)) =
        fun ip : Nat × (ℚ × ℚ) => (ip.1, transcribe_segment ip.2.1 (worker ip.2)) := by
      funext ip; rfl
    rw [this]
  have hnd : ((expected_arrivals plan worker).map Prod.fst).Nodup := by
    rw [expected_arrivals_keys]
    exact List.nodup_range _
  unfold starmap_collect
  have hfun : (fun i => (arrivals.find? (fun a => a.1 = i)).map (·.2)) =
      (fun i => (((plan.map fun p => transcribe_segment p.1 (worker p)).enum.find?
        (fun a => a.1 = i))).map (·.2)) := by
    funext i
    rw [find?_eq_of_perm harr hnd i, hexp]
  rw [hfun]
  have hfun2 : (fun i => (((plan.map fun p => transcribe_segment p.1 (worker p)).enum.find?
      (fun a => a.1 = i))).map (·.2)) =
      (fun i => (plan.map fun p => transcribe_segment p.1 (worker p)).get? i) := by
    funext i
    rw [show ((plan.map fun p => transcribe_segment p.1 (worker p)).enum) =
        ((plan.map fun p => transcribe_segment p.1 (worker p)).enumFrom 0) from rfl,
      find?_enumFrom _ 0 i, if_pos (Nat.zero_le i), Nat.sub_zero]
    cases (plan.map fun p => transcribe_segment p.1 (worker p)).get? i <;> rfl
  rw [hfun2]
  have hlen : plan.length =
      (plan.map fun p => transcribe_segment p.1 (worker p)).length :=
    (List.length_map _ _).symm
  rw [hlen, filterMap_range_get?]

/-- Closed form of the accumulation loop of `transcribe_episode`. -/
theorem mergeResults_spec (L : List WhisperResult) :
    ∀ acc : Transcript,
    mergeResults acc L =
      { text := acc.text ++ concatAll (L.map WhisperResult.text)
        segments := acc.segments ++ (L.map WhisperResult.segments).flatten
        language := (L.map WhisperResult.language).getLastD acc.language } := by
  induction L with
  | nil =>
      intro acc
      simp only [mergeResults, List.map_nil, concatAll, List.flatten_nil,
        List.getLastD_nil]
      rw [String.append_empty, List.append_nil]
  | cons r L ih =>
      intro acc
      rw [mergeResults, ih]
      simp only [List.map_cons, List.flatten_cons, List.getLastD_cons, concatAll]
      rw [String.append_assoc, List.append_assoc]

/-- Offsetting and flattening the per-segment worker results in plan order
keeps the global timestamp sequence monotone: consecutive transcript
segments satisfy `stop ≤ start`, each segment has `start ≤ stop`, and every
segment starts no earlier than the first plan entry. -/
theorem chain'_join_offsets (worker : ℚ × ℚ → WhisperResult) :
    ∀ (plan : List (ℚ × ℚ)),
    (∀ p ∈ plan, p.1 ≤ p.2) →
    List.Chain' (fun p q : ℚ × ℚ => p.2 ≤ q.1) plan →
    (∀ p ∈ plan, ∀ s ∈ (worker p).segments,
      0 ≤ s.start ∧ s.start ≤ s.stop ∧ s.stop ≤ p.2 - p.1) →
    (∀ p ∈ plan, List.Chain' (fun a b : Segment => a.stop ≤ b.start)
      (worker p).segments) →
    List.Chain' (fun a b : Segment => a.stop ≤ b.start)
      ((plan.map fun p => (transcribe_segment p.1 (worker p)).segments).flatten) ∧
    (∀ s ∈ (plan.map fun p => (transcribe_segment p.1 (worker p)).segments).flatten,
      s.start ≤ s.stop ∧ ∀ q ∈ plan.head?, q.1 ≤ s.start) := by
  intro plan
  induction plan with
  | nil => intro _ _ _ _; simp
  | cons p rest ih =>
      intro hwidth hplan hlocal hlchain
      obtain ⟨hpr, hplanrest⟩ := List.chain'_cons'.mp hplan
      obtain ⟨ihc, ihm⟩ := ih
        (fun q hq => hwidth q (List.mem_cons_of_mem _ hq))
        hplanrest
        (fun q hq => hlocal q (List.mem_cons_of_mem _ hq))
        (fun q hq => hlchain q (List.mem_cons_of_mem _ hq))
      have hwp : p.1 ≤ p.2 := hwidth p (List.mem_cons_self _ _)
      have hAmem : ∀ s ∈ (transcribe_segment p.1 (worker p)).segments,
          p.1 ≤ s.start ∧ s.start ≤ s.stop ∧ s.stop ≤ p.2 := by
        intro s hs
        simp only [transcribe_segment, List.mem_map] at hs
        obtain ⟨l, hl, rfl⟩ := hs
        obtain ⟨h0, h1, h2⟩ := hlocal p (List.mem_cons_self _ _) l hl
        refine ⟨?_, ?_, ?_⟩
        · show p.1 ≤ l.start + p.1
          linarith
        · show l.start + p.1 ≤ l.stop + p.1
          linarith
        · show l.stop + p.1 ≤ p.2
          linarith
      have hBlow : ∀ s ∈ (rest.map fun q =>
          (transcribe_segment q.1 (worker q)).segments).flatten, p.2 ≤ s.start := by
        intro s hs
        cases hrest : rest with
        | nil => rw [hrest] at hs; simp at hs
        | cons q0 rest2 =>
            have hq0 : p.2 ≤ q0.1 := by
              have := hpr q0
              rw [hrest] at this
              exact this rfl
            have := (ihm s hs).2 q0 (by rw [hrest]; rfl)
            linarith
      constructor
      · rw [List.map_cons, List.flatten_cons, List.chain'_append]
        refine ⟨?_, ihc, ?_⟩
        · simp only [transcribe_segment]
          rw [List.chain'_map]
          exact (hlchain p (List.mem_cons_self _ _)).imp
            (fun a b hab => by
              show a.stop + p.1 ≤ b.start + p.1
              linarith)
        · intro x hx y hy
          have hxm := hAmem x (List.mem_of_mem_getLast? hx)
          have hym := hBlow y (List.mem_of_mem_head? hy)
          linarith [hxm.2.2, hym]
      · intro s hs
        rw [List.map_cons, List.flatten_cons] at hs
        rcases List.mem_append.mp hs with hs' | hs'
        · obtain ⟨h1, h2, _⟩ := hAmem s hs'
          exact ⟨h2, fun q hq => by
            simp only [List.head?_cons, Option.mem_def, Option.some.injEq] at hq
            rw [← hq]
            exact h1⟩
        · refine ⟨(ihm s hs').1, fun q hq => ?_⟩
          simp only [List.head?_cons, Option.mem_def, Option.some.injEq] at hq
          have := hBlow s hs'
          rw [← hq]
          linarith

/-- C4: for any arrival (completion) order of the per-segment workers —
any permutation of the expected `starmap` arrivals — the merged
transcript's segment sequence is the plan-order flattening of the
offset-adjusted worker results, its full text is the plan-order
concatenation of the worker texts, and (for a chronological, valid
segmentation plan with per-segment results local to their segment) its
timestamps are globally monotonic non-decreasing. -/
theorem transcribe_episode_merge (plan : List (ℚ × ℚ))
    (worker : ℚ × ℚ → WhisperResult) (arrivals : List (Nat × WhisperResult))
    (harr : arrivals.Perm (expected_arrivals plan worker))
    (hwidth : ∀ p ∈ plan, p.1 ≤ p.2)
    (hplan : List.Chain' (fun p q : ℚ × ℚ => p.2 ≤ q.1) plan)
    (hlocal : ∀ p ∈ plan, ∀ s ∈ (worker p).segments,
      0 ≤ s.start ∧ s.start ≤ s.stop ∧ s.stop ≤ p.2 - p.1)
    (hlchain : ∀ p ∈ plan, List.Chain' (fun a b : Segment => a.stop ≤ b.start)
      (worker p).segments) :
    (transcribe_episode plan arrivals).segments =
      (plan.map fun p => (transcribe_segment p.1 (worker p)).segments).flatten ∧
    (transcribe_episode plan arrivals).text =
      concatAll (plan.map fun p => (worker p).text) ∧
    List.Chain' (fun a b : Segment => a.stop ≤ b.start)
      (transcribe_episode plan arrivals).segments ∧
    (∀ s ∈ (transcribe_episode plan arrivals).segments, s.start ≤ s.stop) := by
  have hcoll := starmap_collect_expected plan worker arrivals harr
  have htr : transcribe_episode plan arrivals =
      mergeResults { text := "", segments := [], language := "en" }
        (plan.map fun p => transcribe_segment p.1 (worker p)) := by
    rw [transcribe_episode, hcoll]
  have hsegs : (transcribe_episode plan arrivals).segments =
      (plan.map fun p => (transcribe_segment p.1 (worker p)).segments).flatten := by
    rw [htr, mergeResults_spec]
    simp only [List.nil_append, List.map_map]
    rfl
  have htext : (transcribe_episode plan arrivals).text =
      concatAll (plan.map fun p => (worker p).text) := by
    rw [htr, mergeResults_spec]
    simp only [List.map_map]
    show "" ++ concatAll (plan.map fun p =>
      (transcribe_segment p.1 (worker p)).text) = _
    have : (fun p : ℚ × ℚ => (transcribe_segment p.1 (worker p)).text) =
        fun p : ℚ × ℚ => (worker p).text := by
      funext p; rfl
    rw [this]
    exact String.empty_append _
  obtain ⟨hchain, hmem⟩ :=
    chain'_join_offsets worker plan hwidth hplan hlocal hlchain
  refine ⟨hsegs, htext, by rw [hsegs]; exact hchain, ?_⟩
  intro s hs
  rw [hsegs] at hs
  exact (hmem s hs).1

/-- Witness for C4: a two-segment plan `[(0, 30), (30, 65)]` whose worker
results arrive in reverse order — the second worker finishes first. -/
theorem transcribe_episode_merge_witness :
    (Pod.expected_arrivals [((0 : ℚ), (30 : ℚ)), ((30 : ℚ), (65 : ℚ))]
        (fun p => { text := "t"
                    segments := [{ text := "t", start := 0, stop := p.2 - p.1 }]
                    language := "en" })).reverse.Perm
      (Pod.expected_arrivals [((0 : ℚ), (30 : ℚ)), ((30 : ℚ), (65 : ℚ))]
        (fun p => { text := "t"
                    segments := [{ text := "t", start := 0, stop := p.2 - p.1 }]
                    language := "en" })) ∧
    ((transcribe_episode [((0 : ℚ), (30 : ℚ)), ((30 : ℚ), (65 : ℚ))]
        (Pod.expected_arrivals [((0 : ℚ), (30 : ℚ)), ((30 : ℚ), (65 : ℚ))]
          (fun p => { text := "t"
                      segments := [{ text := "t", start := 0, stop := p.2 - p.1 }]
                      language := "en" })).reverse).segments =
      ([((0 : ℚ), (30 : ℚ)), ((30 : ℚ), (65 : ℚ))].map fun p =>
        (transcribe_segment p.1
          ((fun p : ℚ × ℚ => { text := "t"
                               segments := [{ text := "t", start := 0,
                                              stop := p.2 - p.1 }]
                               language := "en" : WhisperResult }) p)).segments).flatten ∧
    (transcribe_episode [((0 : ℚ), (30 : ℚ)), ((30 : ℚ), (65 : ℚ))]
        (Pod.expected_arrivals [((0 : ℚ), (30 : ℚ)), ((30 : ℚ), (65 : ℚ))]
          (fun p => { text := "t"
                      segments := [{ text := "t", start := 0, stop := p.2 - p.1 }]
                      language := "en" })).reverse).text =
      concatAll ([((0 : ℚ), (30 : ℚ)), ((30 : ℚ), (65 : ℚ))].map fun p =>
        ((fun p : ℚ × ℚ => { text := "t"
                             segments := [{ text := "t", start := 0,
                                            stop := p.2 - p.1 }]
                             language := "en" : WhisperResult }) p).text) ∧
    List.Chain' (fun a b : Segment => a.stop ≤ b.start)
      (transcribe_episode [((0 : ℚ), (30 : ℚ)), ((30 : ℚ), (65 : ℚ))]
        (Pod.expected_arrivals [((0 : ℚ), (30 : ℚ)), ((30 : ℚ), (65 : ℚ))]
          (fun p => { text := "t"
                      segments := [{ text := "t", start := 0, stop := p.2 - p.1 }]
                      language := "en" })).reverse).segments ∧
    (∀ s ∈ (transcribe_episode [((0 : ℚ), (30 : ℚ)), ((30 : ℚ), (65 : ℚ))]
        (Pod.expected_arrivals [((0 : ℚ), (30 : ℚ)), ((30 : ℚ), (65 : ℚ))]
          (fun p => { text := "t"
                      segments := [{ text := "t", start := 0, stop := p.2 - p.1 }]
                      language := "en" })).reverse).segments,
      s.start ≤ s.stop)) :=
  ⟨List.reverse_perm _,
   transcribe_episode_merge [((0 : ℚ), (30 : ℚ)), ((30 : ℚ), (65 : ℚ))]
     (fun p => { text := "t"
                 segments := [{ text := "t", start := 0, stop := p.2 - p.1 }]
                 language := "en" })
     _
     (List.reverse_perm _)
     (by intro p hp; fin_cases hp <;> norm_num)
     (by norm_num [List.chain'_cons])
     (by
       intro p hp s hs
       fin_cases hp <;> simp_all <;> norm_num)
     (by intro p hp; fin_cases hp <;> simp)⟩

end Pod
